import Mathlib

/-!
Shallow embedding of the `ascii_basing` crate (src/lib.rs): a base-62
codec between 32-bit unsigned integers and ASCII strings.

Machine integers are modelled as `Nat` with explicit `% 2^32` (u32) and
`% 2^64` (u64) where the Rust code can overflow.  `u32` values fed to the
encoder are in `[0, 2^32)`; the encoder's arithmetic (`/ 62`, `% 62`,
`- 26`) never overflows, so it is embedded directly on `Nat`.  The
decoder's accumulation uses wrapping `u32` arithmetic (the release-mode
reference behavior described by the crate's design notes) and a `u64`
place value, both made explicit below.  Fallible functions return
`Except String α`, mirroring `Result<_, EncodingError/DecodingError>`
with the error's message string.
-/

namespace AsciiBasing

/-- `char::from_digit(num, radix)` from the Rust standard library:
for `num < radix`, digits `0..9` map to `'0'..'9'` and `10..` map to
`'a'..`; otherwise `None`. -/
def char_from_digit (num : Nat) (radix : Nat) : Option Char :=
  if num < radix then
    if num < 10 then some (Char.ofNat (48 + num))
    else some (Char.ofNat (97 + num - 10))
  else none

/-- `char::to_ascii_uppercase` from the Rust standard library: ASCII
lowercase letters are shifted down by 32, everything else unchanged. -/
def to_ascii_uppercase (c : Char) : Char :=
  if 97 ≤ c.toNat ∧ c.toNat ≤ 122 then Char.ofNat (c.toNat - 32) else c

/-- `char::is_ascii_uppercase` from the Rust standard library. -/
def is_ascii_uppercase (c : Char) : Bool :=
  decide (65 ≤ c.toNat ∧ c.toNat ≤ 90)

/-- `char::to_digit(self, radix)` from the Rust standard library:
`'0'..'9'` have values 0–9, letters (either case) have values 10–35;
the digit must be `< radix`. -/
def char_to_digit (c : Char) (radix : Nat) : Option Nat :=
  if 48 ≤ c.toNat ∧ c.toNat ≤ 57 then
    if c.toNat - 48 < radix then some (c.toNat - 48) else none
  else if 97 ≤ c.toNat ∧ c.toNat ≤ 122 then
    if c.toNat - 97 + 10 < radix then some (c.toNat - 97 + 10) else none
  else if 65 ≤ c.toNat ∧ c.toNat ≤ 90 then
    if c.toNat - 65 + 10 < radix then some (c.toNat - 65 + 10) else none
  else none

/-- The error message built by `EncodingError::new` in the one place
`push_encoded` can fail. -/
def ENCODING_ERROR : String :=
  "There was an attempt to directly parse a value unrepresentable in a single digit of base 62, that is, a value > 62"

/-- The digit-to-symbol step of `push_encoded` (src/lib.rs lines 141–147):
after `value %= 62`, try `char::from_digit(value, 36)`; on failure,
subtract 26 and retry, uppercasing the result. -/
def encode_digit (value : Nat) : Except String Char :=
  match char_from_digit value 36 with
  | some lowercase => Except.ok lowercase
  | none =>
    match char_from_digit (value - 26) 36 with
    | some c => Except.ok (to_ascii_uppercase c)
    | none => Except.error ENCODING_ERROR

/-- `encoding::push_encoded` (src/lib.rs lines 137–150): recursively emit
the higher-order digits of `value / 62`, then append the symbol of
`value % 62` to the accumulated string. -/
def push_encoded (value : Nat) (pre : String) : Except String String :=
  (if h : value / 62 ≠ 0 then push_encoded (value / 62) pre
   else Except.ok pre).bind
    fun acc => (encode_digit (value % 62)).map fun c => acc.push c
termination_by value
decreasing_by
  omega

/-- `String::with_capacity(cap)`: capacity only pre-allocates; the
string's contents are empty regardless of `cap`. -/
def with_capacity (_cap : Nat) : String := ""

/-- `encoding::encode` (src/lib.rs lines 103–115): create a string whose
capacity comes from the optional size hint (6 when absent), then
`push_encoded` the value onto it. -/
def encode (value : Nat) (size : Option Nat) : Except String String :=
  let new_value :=
    match size with
    | some provided_size => with_capacity provided_size
    | none => with_capacity 6
  match push_encoded value new_value with
  | Except.error problem => Except.error problem
  | Except.ok s => Except.ok s

/-- The `DECODING_ERROR` constant of the `decoding` module. -/
def DECODING_ERROR : String :=
  "characters in the string passed to decode should only contain characters 0-9, a-z, and/or Z-A"

/-- The `while let Some(digit) = written.next_back()` loop of
`decoding::decode` (src/lib.rs lines 209–216), with the characters
already in back-to-front order (the head of the list is the character
`next_back` yields next).  `power` is a `u64` (wraps mod `2^64`),
`total` a `u32` (wraps mod `2^32`); `power as u32` truncates. -/
def decode_loop : List Char → Nat → Nat → Except String Nat
  | [], _power, total => Except.ok total
  | digit :: rest, power, total =>
    if is_ascii_uppercase digit then
      match char_to_digit digit 36 with
      | some d =>
        decode_loop rest (power * 62 % 2 ^ 64)
          ((total + (26 + d) * (power % 2 ^ 32) % 2 ^ 32) % 2 ^ 32)
      | none => Except.error DECODING_ERROR
    else
      match char_to_digit digit 36 with
      | some d =>
        decode_loop rest (power * 62 % 2 ^ 64)
          ((total + d * (power % 2 ^ 32) % 2 ^ 32) % 2 ^ 32)
      | none => Except.error DECODING_ERROR

/-- `decoding::decode` (src/lib.rs lines 206–218): consume the character
sequence from its end (`next_back`), so the loop runs over the reversed
list, starting from `power = 1`, `total = 0`. -/
def decode (written : List Char) : Except String Nat :=
  decode_loop written.reverse 1 0

/-- The base-62 symbol for a digit value `d < 62`, as `push_encoded`
emits it: `char::from_digit` directly for `d < 36`, shift by 26 and
uppercase for `36 ≤ d < 62`. -/
def sym62 (d : Nat) : Char :=
  if d < 36 then (char_from_digit d 36).getD '0'
  else to_ascii_uppercase ((char_from_digit (d - 26) 36).getD '0')

/-- The full base-62 representation `push_encoded` appends for `value`:
higher-order digits first, then the symbol of `value % 62`. -/
def rep62 (value : Nat) : List Char :=
  (if h : value / 62 ≠ 0 then rep62 (value / 62) else []) ++ [sym62 (value % 62)]
termination_by value
decreasing_by
  omega

/-- A character of the 62-symbol alphabet: `0`–`9`, `a`–`z`, `A`–`Z`. -/
def inAlphabet (c : Char) : Prop :=
  (48 ≤ c.toNat ∧ c.toNat ≤ 57) ∨ (97 ≤ c.toNat ∧ c.toNat ≤ 122) ∨
    (65 ≤ c.toNat ∧ c.toNat ≤ 90)

instance (c : Char) : Decidable (inAlphabet c) := by
  unfold inAlphabet; infer_instance

/-- The digit value the decoder assigns to an alphabet character:
uppercase letters are `26 +` their base-36 value, everything else its
base-36 value directly. -/
def charVal (c : Char) : Nat :=
  if is_ascii_uppercase c then 26 + (char_to_digit c 36).getD 0
  else (char_to_digit c 36).getD 0

/-- The base-62 numeric value of a most-significant-first symbol
sequence. -/
def baseVal (l : List Char) : Nat :=
  l.foldl (fun a c => a * 62 + charVal c) 0

/-- The base-62 numeric value of a least-significant-first symbol
sequence. -/
def lsbVal : List Char → Nat
  | [] => 0
  | c :: rest => charVal c + 62 * lsbVal rest

/-- The crate's 62-character alphabet, in value order. -/
def ALPHABET : List Char :=
  "0123456789abcdefghijklmnopqrstuvwxyzABCDEFGHIJKLMNOPQRSTUVWXYZ".data

instance {ε α : Type} [DecidableEq ε] [DecidableEq α] : DecidableEq (Except ε α) :=
  fun a b =>
  match a, b with
  | .error e1, .error e2 => decidable_of_iff (e1 = e2) (by simp)
  | .error _, .ok _ => isFalse (by simp)
  | .ok _, .error _ => isFalse (by simp)
  | .ok v1, .ok v2 => decidable_of_iff (v1 = v2) (by simp)

lemma char_to_digit_36_digit (c : Char) (h1 : 48 ≤ c.toNat) (h2 : c.toNat ≤ 57) :
    char_to_digit c 36 = some (c.toNat - 48) := by
  unfold char_to_digit
  rw [if_pos ⟨h1, h2⟩, if_pos (by omega)]

lemma char_to_digit_36_lower (c : Char) (h1 : 97 ≤ c.toNat) (h2 : c.toNat ≤ 122) :
    char_to_digit c 36 = some (c.toNat - 97 + 10) := by
  unfold char_to_digit
  rw [if_neg (by omega), if_pos ⟨h1, h2⟩, if_pos (by omega)]

lemma char_to_digit_36_upper (c : Char) (h1 : 65 ≤ c.toNat) (h2 : c.toNat ≤ 90) :
    char_to_digit c 36 = some (c.toNat - 65 + 10) := by
  unfold char_to_digit
  rw [if_neg (by omega), if_neg (by omega), if_pos ⟨h1, h2⟩, if_pos (by omega)]

lemma char_to_digit_36_none (c : Char) (h : ¬ inAlphabet c) :
    char_to_digit c 36 = none := by
  unfold inAlphabet at h
  unfold char_to_digit
  rw [if_neg (fun hx => h (Or.inl hx)), if_neg (fun hx => h (Or.inr (Or.inl hx))),
    if_neg (fun hx => h (Or.inr (Or.inr hx)))]

lemma is_ascii_uppercase_true (c : Char) (h1 : 65 ≤ c.toNat) (h2 : c.toNat ≤ 90) :
    is_ascii_uppercase c = true := by
  unfold is_ascii_uppercase
  exact decide_eq_true ⟨h1, h2⟩

lemma is_ascii_uppercase_false (c : Char) (h : ¬ (65 ≤ c.toNat ∧ c.toNat ≤ 90)) :
    is_ascii_uppercase c = false := by
  unfold is_ascii_uppercase
  exact decide_eq_false h

/-- On an alphabet character, both decoder branches compute `charVal`:
the uppercase branch adds 26 to the base-36 value, the other branch
takes it directly. -/
lemma decode_loop_cons_valid (c : Char) (hc : inAlphabet c) (rest : List Char)
    (power total : Nat) :
    decode_loop (c :: rest) power total
      = decode_loop rest (power * 62 % 2 ^ 64)
          ((total + charVal c * (power % 2 ^ 32) % 2 ^ 32) % 2 ^ 32) := by
  rcases hc with ⟨h1, h2⟩ | ⟨h1, h2⟩ | ⟨h1, h2⟩
  · rw [decode_loop, is_ascii_uppercase_false c (by omega),
      char_to_digit_36_digit c h1 h2]
    rw [charVal, is_ascii_uppercase_false c (by omega),
      char_to_digit_36_digit c h1 h2]
    simp
  · rw [decode_loop, is_ascii_uppercase_false c (by omega),
      char_to_digit_36_lower c h1 h2]
    rw [charVal, is_ascii_uppercase_false c (by omega),
      char_to_digit_36_lower c h1 h2]
    simp
  · rw [decode_loop, is_ascii_uppercase_true c h1 h2,
      char_to_digit_36_upper c h1 h2]
    rw [charVal, is_ascii_uppercase_true c h1 h2,
      char_to_digit_36_upper c h1 h2]
    simp

lemma decode_loop_cons_invalid (c : Char) (hc : ¬ inAlphabet c) (rest : List Char)
    (power total : Nat) :
    decode_loop (c :: rest) power total = Except.error DECODING_ERROR := by
  rw [decode_loop, is_ascii_uppercase_false c (fun hx => hc (Or.inr (Or.inr hx))),
    char_to_digit_36_none c hc]
  simp

lemma charVal_lt (c : Char) (hc : inAlphabet c) : charVal c < 62 := by
  rcases hc with ⟨h1, h2⟩ | ⟨h1, h2⟩ | ⟨h1, h2⟩
  · rw [charVal, is_ascii_uppercase_false c (by omega), char_to_digit_36_digit c h1 h2]
    simp; omega
  · rw [charVal, is_ascii_uppercase_false c (by omega), char_to_digit_36_lower c h1 h2]
    simp; omega
  · rw [charVal, is_ascii_uppercase_true c h1 h2, char_to_digit_36_upper c h1 h2]
    simp; omega

/-- The decoding loop on all-alphabet input: the result is the
least-significant-first base-62 value times the place value, wrapped to
32 bits. -/
lemma decode_loop_ok (l : List Char) :
    ∀ power total : Nat, (∀ c ∈ l, inAlphabet c) → total < 2 ^ 32 →
      decode_loop l power total
        = Except.ok ((total + lsbVal l * power) % 2 ^ 32) := by
  induction l with
  | nil =>
    intro power total _ ht
    rw [decode_loop, lsbVal]
    rw [Nat.zero_mul, Nat.add_zero, Nat.mod_eq_of_lt ht]
  | cons c rest ih =>
    intro power total hval ht
    have hc : inAlphabet c := hval c (List.mem_cons_self c rest)
    rw [decode_loop_cons_valid c hc rest power total]
    rw [ih _ _ (fun x hx => hval x (List.mem_cons_of_mem _ hx))
      (Nat.mod_lt _ (by positivity))]
    congr 1
    have hdvd : (2 : Nat) ^ 32 ∣ 2 ^ 64 := pow_dvd_pow 2 (by omega)
    have e1 : (total + charVal c * (power % 2 ^ 32) % 2 ^ 32) % 2 ^ 32
        ≡ total + charVal c * power [MOD 2 ^ 32] := by
      calc (total + charVal c * (power % 2 ^ 32) % 2 ^ 32) % 2 ^ 32
          ≡ total + charVal c * (power % 2 ^ 32) % 2 ^ 32 [MOD 2 ^ 32] :=
            Nat.mod_modEq _ _
        _ ≡ total + charVal c * (power % 2 ^ 32) [MOD 2 ^ 32] :=
            Nat.ModEq.add_left _ (Nat.mod_modEq _ _)
        _ ≡ total + charVal c * power [MOD 2 ^ 32] :=
            Nat.ModEq.add_left _ (Nat.ModEq.mul_left _ (Nat.mod_modEq _ _))
    have e2 : lsbVal rest * (power * 62 % 2 ^ 64)
        ≡ lsbVal rest * (power * 62) [MOD 2 ^ 32] :=
      Nat.ModEq.mul_left _ ((Nat.mod_modEq _ _).of_dvd hdvd)
    have e3 := e1.add e2
    calc ((total + charVal c * (power % 2 ^ 32) % 2 ^ 32) % 2 ^ 32
          + lsbVal rest * (power * 62 % 2 ^ 64)) % 2 ^ 32
        = (total + charVal c * power + lsbVal rest * (power * 62)) % 2 ^ 32 := e3
      _ = (total + lsbVal (c :: rest) * power) % 2 ^ 32 := by
          rw [lsbVal]; ring_nf

lemma lsbVal_append (l : List Char) (c : Char) :
    lsbVal (l ++ [c]) = lsbVal l + 62 ^ l.length * charVal c := by
  induction l with
  | nil => simp [lsbVal]
  | cons x t ih =>
    rw [List.cons_append, lsbVal, ih, lsbVal, List.length_cons, pow_succ]
    ring

lemma foldl_eq_lsbVal (l : List Char) :
    ∀ a : Nat, l.foldl (fun a c => a * 62 + charVal c) a
      = a * 62 ^ l.length + lsbVal l.reverse := by
  induction l with
  | nil => intro a; simp [lsbVal]
  | cons c t ih =>
    intro a
    rw [List.foldl_cons, ih, List.reverse_cons, lsbVal_append, List.length_reverse,
      List.length_cons, pow_succ]
    ring

lemma baseVal_eq_lsbVal (l : List Char) : baseVal l = lsbVal l.reverse := by
  rw [baseVal, foldl_eq_lsbVal]
  simp

/-- `decode` on all-alphabet input returns the base-62 value of the
sequence, wrapped to 32 bits. -/
lemma decode_ok (l : List Char) (hval : ∀ c ∈ l, inAlphabet c) :
    decode l = Except.ok (baseVal l % 2 ^ 32) := by
  rw [decode, decode_loop_ok l.reverse 1 0
    (fun c hc => hval c (List.mem_reverse.mp hc)) (by positivity)]
  rw [baseVal_eq_lsbVal]
  simp

lemma decode_loop_err (l : List Char) :
    ∀ power total : Nat,
      ((∃ e, decode_loop l power total = Except.error e) ↔ ∃ c ∈ l, ¬ inAlphabet c) := by
  induction l with
  | nil =>
    intro power total
    simp [decode_loop]
  | cons c rest ih =>
    intro power total
    by_cases hc : inAlphabet c
    · rw [decode_loop_cons_valid c hc rest power total]
      simp only [List.mem_cons]
      constructor
      · intro ⟨e, he⟩
        obtain ⟨x, hx, hnx⟩ := (ih _ _).mp ⟨e, he⟩
        exact ⟨x, Or.inr hx, hnx⟩
      · intro ⟨x, hx, hnx⟩
        rcases hx with rfl | hx
        · exact absurd hc hnx
        · exact (ih _ _).mpr ⟨x, hx, hnx⟩
    · rw [decode_loop_cons_invalid c hc rest power total]
      exact ⟨fun _ => ⟨c, List.mem_cons_self c rest, hc⟩, fun _ => ⟨DECODING_ERROR, rfl⟩⟩

/-- `decode` fails exactly when some input character is outside the
62-symbol alphabet. -/
lemma decode_err_iff (l : List Char) :
    (∃ e, decode l = Except.error e) ↔ ∃ c ∈ l, ¬ inAlphabet c := by
  rw [decode, decode_loop_err]
  simp

/-- Each digit value below 62 maps to an alphabet symbol, the decoder
assigns that symbol the same value back, and only the digit 0 maps to
`'0'`. -/
lemma sym62_spec : ∀ d, d < 62 →
    inAlphabet (sym62 d) ∧ charVal (sym62 d) = d ∧ (0 < d → sym62 d ≠ '0') := by
  decide

/-- The digit-to-symbol step of `push_encoded` never takes its error
branch for digit values below 62. -/
lemma encode_digit_eq : ∀ d, d < 62 → encode_digit d = Except.ok (sym62 d) := by
  decide

/-- `push_encoded` always succeeds and appends exactly the base-62
representation of `v` after the existing contents of the string. -/
lemma push_encoded_eq (v : Nat) :
    ∀ pre : String, push_encoded v pre = Except.ok ⟨pre.data ++ rep62 v⟩ := by
  induction v using Nat.strong_induction_on with
  | _ v ih =>
    intro pre
    rw [push_encoded, rep62]
    by_cases h : v / 62 ≠ 0
    · rw [dif_pos h, dif_pos h, ih (v / 62) (by omega) pre,
        encode_digit_eq (v % 62) (by omega)]
      simp [Except.bind, Except.map, String.push]
    · rw [dif_neg h, dif_neg h, encode_digit_eq (v % 62) (by omega)]
      simp [Except.bind, Except.map, String.push]

/-- `encode` always returns the base-62 representation, for any size
hint: the hint only sets the initial capacity, whose contents are empty
either way. -/
lemma encode_eq (v : Nat) (hint : Option Nat) :
    encode v hint = Except.ok ⟨rep62 v⟩ := by
  cases hint <;> simp [encode, with_capacity, push_encoded_eq]

lemma rep62_ne_nil (v : Nat) : rep62 v ≠ [] := by
  rw [rep62]
  simp

lemma rep62_valid (v : Nat) : ∀ c ∈ rep62 v, inAlphabet c := by
  induction v using Nat.strong_induction_on with
  | _ v ih =>
    intro c hc
    rw [rep62] at hc
    rcases List.mem_append.mp hc with hc | hc
    · by_cases h : v / 62 ≠ 0
      · rw [dif_pos h] at hc
        exact ih (v / 62) (by omega) c hc
      · rw [dif_neg h] at hc
        simp at hc
    · simp at hc
      subst hc
      exact (sym62_spec (v % 62) (by omega)).1

lemma foldl_rep62 (v : Nat) : ∀ a : Nat,
    (rep62 v).foldl (fun a c => a * 62 + charVal c) a
      = a * 62 ^ (rep62 v).length + v := by
  induction v using Nat.strong_induction_on with
  | _ v ih =>
    intro a
    rw [rep62]
    by_cases h : v / 62 ≠ 0
    · rw [dif_pos h, List.foldl_append, ih (v / 62) (by omega) a, List.foldl_cons,
        List.foldl_nil, List.length_append, (sym62_spec (v % 62) (by omega)).2.1,
        List.length_singleton]
      calc (a * 62 ^ (rep62 (v / 62)).length + v / 62) * 62 + v % 62
          = a * (62 ^ (rep62 (v / 62)).length * 62) + (62 * (v / 62) + v % 62) := by
            ring
        _ = a * 62 ^ ((rep62 (v / 62)).length + 1) + v := by
            rw [Nat.div_add_mod, pow_succ]
    · rw [dif_neg h, List.nil_append, List.foldl_cons, List.foldl_nil,
        (sym62_spec (v % 62) (by omega)).2.1, List.length_singleton, pow_one]
      omega

/-- The base-62 value of the representation of `v` is `v` itself. -/
lemma baseVal_rep62 (v : Nat) : baseVal (rep62 v) = v := by
  rw [baseVal, foldl_rep62]
  simp

/-- For positive `v` the representation has exactly
`⌊log62 v⌋ + 1` symbols. -/
lemma rep62_length (v : Nat) (hv : 0 < v) :
    (rep62 v).length = Nat.log 62 v + 1 := by
  induction v using Nat.strong_induction_on with
  | _ v ih =>
    rw [rep62]
    by_cases h : v / 62 ≠ 0
    · rw [dif_pos h, List.length_append, ih (v / 62) (by omega) (by omega),
        List.length_singleton]
      have h1 : Nat.log 62 (v / 62) = Nat.log 62 v - 1 := Nat.log_div_base 62 v
      have h2 : 0 < Nat.log 62 v := Nat.log_pos (by omega) (by omega)
      omega
    · rw [dif_neg h, List.nil_append, List.length_singleton]
      have h0 : Nat.log 62 v = 0 := Nat.log_eq_zero_iff.mpr (Or.inl (by omega))
      omega

lemma rep62_zero_length : (rep62 0).length = 1 := by
  rw [rep62]
  simp

/-- For positive `v` the leading symbol of the representation is not
`'0'`. -/
lemma rep62_head (v : Nat) (hv : 0 < v) :
    ∀ c, (rep62 v).head? = some c → c ≠ '0' := by
  induction v using Nat.strong_induction_on with
  | _ v ih =>
    intro c hc
    rw [rep62] at hc
    by_cases h : v / 62 ≠ 0
    · rw [dif_pos h] at hc
      rcases hne : rep62 (v / 62) with _ | ⟨x, xs⟩
      · exact absurd hne (rep62_ne_nil _)
      · rw [hne] at hc
        simp at hc
        exact hc ▸ ih (v / 62) (by omega) (by omega) x (by rw [hne]; rfl)
    · rw [dif_neg h] at hc
      simp at hc
      subst hc
      have hv62 : v < 62 := by omega
      rw [Nat.mod_eq_of_lt hv62]
      exact (sym62_spec v (by omega)).2.2 hv

lemma rep62_0 : rep62 0 = ['0'] := by
  simp [rep62]
  decide

lemma rep62_61 : rep62 61 = ['Z'] := by
  simp [rep62]
  decide

lemma rep62_62 : rep62 62 = ['1', '0'] := by
  simp [rep62]
  decide

lemma rep62_200481 : rep62 200481 = ['Q', '9', 'z'] := by
  simp [rep62]
  decide

lemma rep62_max : rep62 4294967295 = ['4', 'G', 'F', 'f', 'c', '3'] := by
  simp [rep62]
  decide

/-- Claim C1: Round-trip — for every value `v` in `[0, 2^32 - 1]` and every
size hint `hint`, decoding the character sequence of the string returned by
`encode v hint` succeeds and returns exactly `v`. -/
theorem c1_round_trip (v : Nat) (hv : v < 2 ^ 32) (hint : Option Nat) :
    (encode v hint).bind (fun s => decode s.data) = Except.ok v := by
  rw [encode_eq]
  show decode (String.mk (rep62 v)).data = Except.ok v
  show decode (rep62 v) = Except.ok v
  rw [decode_ok _ (rep62_valid v), baseVal_rep62, Nat.mod_eq_of_lt hv]

theorem c1_round_trip_witness :
    200481 < 2 ^ 32
      ∧ (encode 200481 (some 3)).bind (fun s => decode s.data) = Except.ok 200481 :=
  ⟨by decide, c1_round_trip 200481 (by decide) (some 3)⟩

/-- Claim C2: Digit/symbol mapping — for every digit value `d` in `[0, 61]`,
the encoder's digit-mapping step emits the character at index `d` of the
alphabet `0123456789abcdefghijklmnopqrstuvwxyzABCDEFGHIJKLMNOPQRSTUVWXYZ`,
and the decoder assigns that same symbol the digit value `d` (both as the
per-character value `charVal` and as a one-symbol decode). -/
theorem c2_digit_symbol_mapping (d : Nat) (hd : d < 62) :
    encode_digit d = Except.ok (ALPHABET.getD d ' ')
      ∧ charVal (ALPHABET.getD d ' ') = d
      ∧ decode [ALPHABET.getD d ' '] = Except.ok d := by
  have H : ∀ d, d < 62 →
      (encode_digit d = Except.ok (ALPHABET.getD d ' ')
        ∧ charVal (ALPHABET.getD d ' ') = d
        ∧ decode [ALPHABET.getD d ' '] = Except.ok d) := by decide
  exact H d hd

theorem c2_digit_symbol_mapping_witness :
    37 < 62
      ∧ (encode_digit 37 = Except.ok (ALPHABET.getD 37 ' ')
        ∧ charVal (ALPHABET.getD 37 ' ') = 37
        ∧ decode [ALPHABET.getD 37 ' '] = Except.ok 37) :=
  ⟨by decide, c2_digit_symbol_mapping 37 (by decide)⟩

/-- Claim C3: Decode input validation — `decode` returns a decoding failure
exactly when its input contains a character outside the 62-symbol alphabet
(and `"1@"` in particular fails with the decoding error). -/
theorem c3_decode_validation :
    (∀ l : List Char,
      (∃ e, decode l = Except.error e) ↔ ∃ c ∈ l, ¬ inAlphabet c)
    ∧ decode "1@".data = Except.error DECODING_ERROR :=
  ⟨decode_err_iff, by decide⟩

/-- Claim C4: Encode never fails — for every value and any size hint,
`encode` and `push_encoded` return `ok`; the `EncodingError` branch is
unreachable. -/
theorem c4_encode_never_fails (value : Nat) (hint : Option Nat) (pre : String) :
    (∃ s, encode value hint = Except.ok s)
      ∧ ∃ s, push_encoded value pre = Except.ok s :=
  ⟨⟨_, encode_eq value hint⟩, ⟨_, push_encoded_eq value pre⟩⟩

/-- Claim C5: Minimal-length representation — for every `v > 0` the encoded
string has length exactly `⌊log62 v⌋ + 1` (hence at most 6 characters for
any `u32` value, with length non-decreasing in `v`) and its first symbol is
never `'0'`. -/
theorem c5_minimal_length (v : Nat) (hv : 0 < v) (hint : Option Nat) :
    ∃ s, encode v hint = Except.ok s
      ∧ s.length = Nat.log 62 v + 1
      ∧ (v < 2 ^ 32 → s.length ≤ 6)
      ∧ s.data.head? ≠ some '0'
      ∧ ∀ w t, v ≤ w → encode w hint = Except.ok t → s.length ≤ t.length := by
  refine ⟨⟨rep62 v⟩, encode_eq v hint, ?_, ?_, ?_, ?_⟩
  · show (rep62 v).length = Nat.log 62 v + 1
    exact rep62_length v hv
  · intro hv32
    have hlt : Nat.log 62 v < 6 :=
      Nat.log_lt_of_lt_pow (by omega) (lt_of_lt_of_le hv32 (by norm_num))
    show (rep62 v).length ≤ 6
    rw [rep62_length v hv]
    omega
  · intro hc
    exact rep62_head v hv '0' hc rfl
  · intro w t hw ht
    rw [encode_eq] at ht
    have hts : t = String.mk (rep62 w) := by
      injection ht with h
      exact h.symm
    subst hts
    show (rep62 v).length ≤ (rep62 w).length
    rw [rep62_length v hv, rep62_length w (lt_of_lt_of_le hv hw)]
    have := Nat.log_mono_right (b := 62) hw
    omega

theorem c5_minimal_length_witness :
    0 < 62
      ∧ ∃ s, encode 62 none = Except.ok s
        ∧ s.length = Nat.log 62 62 + 1
        ∧ (62 < 2 ^ 32 → s.length ≤ 6)
        ∧ s.data.head? ≠ some '0'
        ∧ ∀ w t, 62 ≤ w → encode w none = Except.ok t → s.length ≤ t.length :=
  ⟨by decide, c5_minimal_length 62 (by decide) none⟩

/-- Claim C6: Concrete vectors — `encode 0 hint = "0"` for every hint,
`encode 61 none = "Z"`, `encode 62 none = "10"`,
`encode 200481 (some 3) = "Q9z"`, `decode "Q9z" = 200481`, and
`encode (2^32 - 1) hint = "4GFfc3"` (length 6) for every hint. -/
theorem c6_concrete_vectors :
    (∀ hint, encode 0 hint = Except.ok "0")
      ∧ encode 61 none = Except.ok "Z"
      ∧ encode 62 none = Except.ok "10"
      ∧ encode 200481 (some 3) = Except.ok "Q9z"
      ∧ decode "Q9z".data = Except.ok 200481
      ∧ (∀ hint, encode 4294967295 hint = Except.ok "4GFfc3")
      ∧ ("4GFfc3" : String).length = 6 := by
  refine ⟨fun hint => ?_, ?_, ?_, ?_, by decide, fun hint => ?_, by decide⟩
  · rw [encode_eq, rep62_0]
  · rw [encode_eq, rep62_61]
  · rw [encode_eq, rep62_62]
  · rw [encode_eq, rep62_200481]
  · rw [encode_eq, rep62_max]

/-- Claim C7: Empty-input decode — `decode` of the empty sequence returns
`ok 0` (the accumulator's initial value), while `encode 0 hint` is the
one-character string `"0"`, never the empty string. -/
theorem c7_empty_decode :
    decode ([] : List Char) = Except.ok 0
      ∧ ∀ hint, encode 0 hint = Except.ok "0" ∧ encode 0 hint ≠ Except.ok "" := by
  refine ⟨by decide, fun hint => ⟨?_, ?_⟩⟩
  · rw [encode_eq, rep62_0]
  · rw [encode_eq, rep62_0]
    decide

/-- Claim C8: Decode overflow policy — on an all-alphabet input whose
base-62 value exceeds `2^32 - 1`, `decode` does not fail; the accumulated
total wraps modulo `2^32`. -/
theorem c8_decode_overflow (l : List Char) (hval : ∀ c ∈ l, inAlphabet c)
    (_hbig : 2 ^ 32 ≤ baseVal l) :
    decode l = Except.ok (baseVal l % 2 ^ 32) :=
  decode_ok l hval

theorem c8_decode_overflow_witness :
    (∀ c ∈ "4GFfc4".data, inAlphabet c)
      ∧ 2 ^ 32 ≤ baseVal "4GFfc4".data
      ∧ decode "4GFfc4".data = Except.ok (baseVal "4GFfc4".data % 2 ^ 32) :=
  ⟨by decide, by decide, c8_decode_overflow _ (by decide) (by decide)⟩

/-- Claim C9: Size-hint noninterference — for every value and any two size
hints, `encode` returns identical strings: the hint only pre-sizes the
output buffer (modelled as the empty initial contents of
`String::with_capacity`) and never changes the result. -/
theorem c9_size_hint_noninterference (v : Nat) (h1 h2 : Option Nat) :
    encode v h1 = encode v h2 := by
  rw [encode_eq, encode_eq]

/-- Claim C10: `push_encoded` frame property — for every existing string and
every value, `push_encoded` only appends: the result is the original
contents followed by exactly the string `encode` would produce on an empty
buffer. -/
theorem c10_push_encoded_frame (value : Nat) (s : String) (hint : Option Nat) :
    ∃ t enc, push_encoded value s = Except.ok t
      ∧ encode value hint = Except.ok enc
      ∧ t.data = s.data ++ enc.data :=
  ⟨⟨s.data ++ rep62 value⟩, ⟨rep62 value⟩, push_encoded_eq value s,
    encode_eq value hint, rfl⟩

end AsciiBasing
